import Mathlib

/-!
Shallow embedding of the `procwire` rust-worker example
(`examples/rust-worker/rust/src/main.rs`): a line-delimited JSON-RPC 2.0
worker.  JSON values are modelled by an inductive type, serde's struct
deserialization of `JsonRpcRequest` by `decodeRequest`, the three `send_*`
encoders by functions producing the serialized JSON value, the method
dispatch by `handleMethod`/`handle_request`, and the stdin loop by
`runLoop`.  Machine integers are modelled as `Int`/`Nat` with explicit
wrapping mod 2^64.  The `is_prime` handler's `(n as f64).sqrt() as u64`
is modelled exactly: IEEE-754 round-to-nearest-even conversion of a `u64`
to binary64 followed by a correctly rounded square root and truncation,
expressed over the integers.
-/

/-- Two's-complement wrap of an integer into the `i64` range, modelling
release-mode `i64` arithmetic overflow behaviour. -/
def wrapI64 (x : Int) : Int := (x + 2 ^ 63) % 2 ^ 64 - 2 ^ 63

/-- Fuel-based integer square root (the fuel makes it kernel-reducible;
`isqrtAux f n` computes `Nat.sqrt n` whenever `n ≤ f`). -/
def isqrtAux : Nat → Nat → Nat
  | 0, _ => 0
  | fuel + 1, n =>
    if n < 2 then n
    else
      let r := 2 * isqrtAux fuel (n / 4)
      if (r + 1) * (r + 1) ≤ n then r + 1 else r

/-- Executable floor square root. -/
def isqrt (n : Nat) : Nat := isqrtAux n n

/-- Fuel-based binary length: `bitlenAux f n` is the number of binary
digits of `n` whenever `n ≤ f`. -/
def bitlenAux : Nat → Nat → Nat
  | 0, _ => 0
  | fuel + 1, n => if n = 0 then 0 else bitlenAux fuel (n / 2) + 1

/-- Number of binary digits of `n` (0 for 0); `n ∈ [2^(bitlen n - 1), 2^(bitlen n))`. -/
def bitlen (n : Nat) : Nat := bitlenAux n n

/-- Round `n` to the nearest multiple of `g` (ties to the even multiple),
the rounding used by IEEE-754 round-to-nearest-even. -/
def rnd_mult (g n : Nat) : Nat :=
  let q := n / g
  let r := n % g
  if 2 * r < g then q * g
  else if g < 2 * r then (q + 1) * g
  else if q % 2 = 0 then q * g else (q + 1) * g

/-- Models the Rust cast `n as f64` for `n : u64`: round to 53 significant
bits, nearest, ties to even.  The result of the cast is an integer-valued
binary64, returned here as that integer. -/
def toF64 (n : Nat) : Nat :=
  let L := bitlen n
  if L ≤ 53 then n else rnd_mult (2 ^ (L - 53)) n

/-- Models `x.sqrt() as u64` for an integer-valued binary64 `x = m ≥ 0`:
the IEEE-754 correctly rounded (round-to-nearest-even) square root of `m`,
truncated toward zero.  With `E` the binade exponent of `√m` (so
`√m ∈ [2^E, 2^(E+1))`), binary64 values there are the multiples of
`2^(E-52)`; scaling by `S = 2^(52-E)` turns rounding `√m` to that grid
into rounding `√(m·S²)` to the nearest integer (ties cannot occur). -/
def f64_sqrt_floor (m : Nat) : Nat :=
  if m = 0 then 0
  else
    let E := (bitlen m - 1) / 2
    let S := 2 ^ (52 - E)
    let M := m * S * S
    let k := isqrt M
    let r := if M ≤ k * k + k then k else k + 1
    r / S

/-- Models `let sqrt = (n as f64).sqrt() as u64;` from `fn is_prime`. -/
def rust_sqrt (n : Nat) : Nat := f64_sqrt_floor (toF64 n)

/-- Models `fn fibonacci(n: u64) -> u64` (naive recursion; release-mode
`u64` addition wraps mod 2^64). -/
def fibonacci : Nat → Nat
  | 0 => 0
  | 1 => 1
  | n + 2 => (fibonacci (n + 1) + fibonacci n) % 2 ^ 64

/-- Models the loop `for i in (3..=sqrt).step_by(2) { if n % i == 0 { return false; } }`:
true iff no element of `3, 5, …, ≤ s` divides `n`. -/
def noOddDivUpTo (s n : Nat) : Bool :=
  (List.range' 3 ((s - 1) / 2) 2).all fun i => n % i != 0

/-- Models `fn is_prime(n: u64) -> bool`. -/
def is_prime (n : Nat) : Bool :=
  if n < 2 then false
  else if n = 2 then true
  else if n % 2 = 0 then false
  else noOddDivUpTo (rust_sqrt n) n

/-- Models `.sum::<i64>()` over the extracted values (release-mode `i64`
addition wraps). -/
def sum_i64 (xs : List Int) : Int := xs.foldl (fun a i => wrapI64 (a + i)) 0

/-- JSON values as produced by `serde_json` (numbers are restricted to the
integer-valued numbers that the claims exercise; object entry lists
represent `serde_json::Map`s, whose keys are distinct). -/
inductive Json where
  | null : Json
  | bool : Bool → Json
  | num : Int → Json
  | str : String → Json
  | arr : List Json → Json
  | obj : List (String × Json) → Json

/-- Models `serde_json::Value::index` for a string key (`value["k"]`):
`Null` when the value is not an object or the key is missing. -/
def jIndex (j : Json) (k : String) : Json :=
  match j with
  | .obj kvs => ((kvs.find? fun p => p.1 == k).map Prod.snd).getD .null
  | _ => .null

/-- Models `Value::as_i64`: `Some` exactly for integer numbers in `i64` range. -/
def asI64 : Json → Option Int
  | .num i => if -(2 ^ 63) ≤ i ∧ i < 2 ^ 63 then some i else none
  | _ => none

/-- Models `Value::as_u64`: `Some` exactly for integer numbers in `u64` range. -/
def asU64 : Json → Option Nat
  | .num i => if 0 ≤ i ∧ i < 2 ^ 64 then some i.toNat else none
  | _ => none

/-- Models `Value::as_str`. -/
def asStr : Json → Option String
  | .str s => some s
  | _ => none

/-- Models `Value::as_array`. -/
def asArray : Json → Option (List Json)
  | .arr l => some l
  | _ => none

/-- The decoded form of `struct JsonRpcRequest` (field `id` is
`Option<Value>`, field `params` defaults to `Value::Null`). -/
structure JsonRpcRequest where
  jsonrpc : String
  id : Option Json
  method : String
  params : Json

/-- Models `fn send_response`: the serialized `JsonRpcResponse` line
(struct fields serialize in declaration order). -/
def send_response (id result : Json) : Json :=
  .obj [("jsonrpc", .str "2.0"), ("id", id), ("result", result)]

/-- Models `fn send_error`: the serialized `JsonRpcError` line. -/
def send_error (id : Json) (code : Int) (message : String) : Json :=
  .obj [("jsonrpc", .str "2.0"), ("id", id),
        ("error", .obj [("code", .num code), ("message", .str message)])]

/-- Models `fn send_notification`: the serialized `JsonRpcNotification` line. -/
def send_notification (method : String) (params : Json) : Json :=
  .obj [("jsonrpc", .str "2.0"), ("method", .str method), ("params", params)]

/-- Look up a known struct field among the entries of the incoming JSON
object, as serde's derived `Deserialize` does: absent is `none`, a
repeated known field is a `duplicate field` error. -/
def getField (kvs : List (String × Json)) (k : String) : Except String (Option Json) :=
  match kvs.filter fun p => p.1 == k with
  | [] => .ok none
  | [p] => .ok (some p.2)
  | _ => .error ("duplicate field " ++ k)

/-- Models `serde_json::from_str::<JsonRpcRequest>` applied to the parsed
JSON value of a line: the top level must be an object; `jsonrpc` and
`method` are required `String` fields; `id` is `Option<Value>` (absent or
`null` become `None`); `params` defaults to `Null`; unknown fields are
ignored. -/
def decodeRequest : Json → Except String JsonRpcRequest
  | .obj kvs =>
    match getField kvs "jsonrpc" with
    | .error e => .error e
    | .ok none => .error "missing field jsonrpc"
    | .ok (some (.str ver)) =>
      match getField kvs "method" with
      | .error e => .error e
      | .ok none => .error "missing field method"
      | .ok (some (.str mname)) =>
        match getField kvs "id" with
        | .error e => .error e
        | .ok iv =>
          match getField kvs "params" with
          | .error e => .error e
          | .ok pv =>
            .ok ⟨ver,
                 match iv with
                 | some .null => none
                 | some v => some v
                 | none => none,
                 mname, pv.getD .null⟩
      | .ok (some _) => .error "invalid type for field method"
    | .ok (some _) => .error "invalid type for field jsonrpc"
  | _ => .error "expected object"

/-- The method table of `fn handle_request` (the six arms of the `match`
on `request.method`): `some result` for a registered method, `none` for
the fall-through arm. -/
def handleMethod (mth : String) (params : Json) : Option Json :=
  match mth with
  | "add" =>
    let a := (asI64 (jIndex params "a")).getD 0
    let b := (asI64 (jIndex params "b")).getD 0
    some (.num (wrapI64 (a + b)))
  | "multiply" =>
    let a := (asI64 (jIndex params "a")).getD 0
    let b := (asI64 (jIndex params "b")).getD 0
    some (.num (wrapI64 (a * b)))
  | "fibonacci" =>
    let n := (asU64 (jIndex params "n")).getD 0
    some (.num (fibonacci n))
  | "is_prime" =>
    let n := (asU64 (jIndex params "n")).getD 0
    some (.bool (is_prime n))
  | "sum_array" =>
    match asArray (jIndex params "numbers") with
    | some l => some (.num (sum_i64 (l.filterMap asI64)))
    | none => some (.num 0)
  | "echo" =>
    let message := (asStr (jIndex params "message")).getD ""
    some (.str message)
  | _ => none

/-- Models `fn handle_request`: the list of lines printed while handling
one decoded message, together with the exit code when the call ends in
`std::process::exit` (the `shutdown` notification branch). -/
def handle_request (r : JsonRpcRequest) : List Json × Option Nat :=
  match r.id with
  | none =>
    if r.method = "shutdown" then
      ([send_notification "log" (.obj [("message", .str "Shutting down...")])], some 0)
    else
      ([send_notification "log"
          (.obj [("message", .str ("Unknown notification: " ++ r.method))])], none)
  | some idv =>
    match handleMethod r.method r.params with
    | some result =>
      ([send_response idv result,
        send_notification "log"
          (.obj [("message", .str ("Processed " ++ r.method))])], none)
    | none =>
      ([send_error idv (-32601) ("Method not found: " ++ r.method)], none)

/-- One iteration of the `for line in reader.lines()` body: the input is
the syntactic JSON parse of the line (`.error` for malformed JSON), the
output the printed lines and the exit code if the process exits. -/
def processLine (l : Except String Json) : List Json × Option Nat :=
  match l with
  | .error e =>
    ([send_notification "log" (.obj [("message", .str ("Parse error: " ++ e))])], none)
  | .ok j =>
    match decodeRequest j with
    | .error e =>
      ([send_notification "log" (.obj [("message", .str ("Parse error: " ++ e))])], none)
    | .ok r => handle_request r

/-- Models the stdin loop of `fn main`: lines are consumed in order until
end of input or until a line makes the process exit. -/
def runLoop : List (Except String Json) → List Json
  | [] => []
  | l :: rest =>
    match processLine l with
    | (out, some _) => out
    | (out, none) => out ++ runLoop rest

/-- Models `fn main`: the startup notification followed by the loop. -/
def main_outputs (input : List (Except String Json)) : List Json :=
  send_notification "log" (.obj [("message", .str "Rust worker started")]) :: runLoop input

set_option maxRecDepth 100000

/-- Shorthand for the id classification performed inside `decodeRequest`:
`Option<Value>` turns both an absent `id` and a JSON-`null` `id` into `None`. -/
def classifyId : Option Json → Option Json
  | some .null => none
  | some v => some v
  | none => none

/-- Inversion of `decodeRequest` on an object: it succeeds exactly when the
`jsonrpc` and `method` fields are present, unique and strings, and the
`id` and `params` fields are not duplicated. -/
theorem decodeRequest_ok_iff (kvs : List (String × Json)) (r : JsonRpcRequest) :
    decodeRequest (.obj kvs) = .ok r ↔
      ∃ ver mname iv pv,
        getField kvs "jsonrpc" = .ok (some (.str ver)) ∧
        getField kvs "method" = .ok (some (.str mname)) ∧
        getField kvs "id" = .ok iv ∧
        getField kvs "params" = .ok pv ∧
        r = ⟨ver, classifyId iv, mname, pv.getD .null⟩ := by
  constructor
  · intro h
    simp only [decodeRequest] at h
    rcases hj : getField kvs "jsonrpc" with e | jv <;> rw [hj] at h
    · exact Except.noConfusion h
    rcases jv with _ | v
    · exact Except.noConfusion h
    rcases v with _ | b | i | ver | l | o
    · exact Except.noConfusion h
    · exact Except.noConfusion h
    · exact Except.noConfusion h
    case str =>
      rcases hm : getField kvs "method" with e | mv <;> rw [hm] at h
      · exact Except.noConfusion h
      rcases mv with _ | w
      · exact Except.noConfusion h
      rcases w with _ | b2 | i2 | mname | l2 | o2
      · exact Except.noConfusion h
      · exact Except.noConfusion h
      · exact Except.noConfusion h
      case str =>
        rcases hi : getField kvs "id" with e | iv <;> rw [hi] at h
        · exact Except.noConfusion h
        rcases hp : getField kvs "params" with e | pv <;> rw [hp] at h
        · exact Except.noConfusion h
        refine ⟨ver, mname, iv, pv, rfl, rfl, rfl, rfl, ?_⟩
        have h' : Except.ok (⟨ver, classifyId iv, mname, pv.getD .null⟩ : JsonRpcRequest)
            = Except.ok r := h
        injection h' with h''
        exact h''.symm
      · exact Except.noConfusion h
      · exact Except.noConfusion h
    · exact Except.noConfusion h
    · exact Except.noConfusion h
  · rintro ⟨ver, mname, iv, pv, hj, hm, hi, hp, rfl⟩
    simp only [decodeRequest]
    rw [hj, hm, hi, hp]
    rfl

/-- C1 (amended): a syntactically valid JSON object whose `method` field is
a string is accepted exactly when it also carries a `jsonrpc` field that is
a string; the value of `jsonrpc` is unrestricted (no "2.0" enforcement),
but a missing `jsonrpc` field is rejected (see the counterexample). -/
theorem decode_accepts_any_version (kvs : List (String × Json)) (ver mname : String)
    (iv pv : Option Json)
    (hj : getField kvs "jsonrpc" = .ok (some (.str ver)))
    (hm : getField kvs "method" = .ok (some (.str mname)))
    (hi : getField kvs "id" = .ok iv)
    (hp : getField kvs "params" = .ok pv) :
    ∃ r, decodeRequest (.obj kvs) = .ok r ∧ r.jsonrpc = ver ∧ r.method = mname := by
  exact ⟨⟨ver, classifyId iv, mname, pv.getD .null⟩,
    (decodeRequest_ok_iff _ _).2 ⟨ver, mname, iv, pv, hj, hm, hi, hp, rfl⟩, rfl, rfl⟩

/-- C1 witness: a message whose `jsonrpc` field is `"1.0"` (not `"2.0"`) is
accepted. -/
theorem decode_accepts_any_version_witness :
    getField [("jsonrpc", Json.str "1.0"), ("method", Json.str "ping")] "jsonrpc" =
        .ok (some (.str "1.0")) ∧
    ∃ r, decodeRequest (.obj [("jsonrpc", Json.str "1.0"), ("method", Json.str "ping")]) = .ok r ∧
        r.jsonrpc = "1.0" ∧ r.method = "ping" :=
  ⟨rfl, decode_accepts_any_version _ "1.0" "ping" none none rfl rfl rfl rfl⟩

/-- C1 counterexample: a syntactically valid JSON object with a string
`method` field but no `jsonrpc` field is rejected by the decoder, refuting
"accepted regardless of whether a `jsonrpc` version field is present". -/
theorem decode_missing_version_rejected :
    decodeRequest (.obj [("method", .str "ping")]) = .error "missing field jsonrpc" := rfl

/-- C2 (amended): encoding the success response with id=42, result=7
produces the JSON object carrying id=42 and result=7 unchanged, but
decoding that line with the program's message decoder
(`from_str::<JsonRpcRequest>`) fails: responses have no `method` field,
which the decoder requires. -/
theorem response_encode_fields :
    send_response (.num 42) (.num 7) =
      .obj [("jsonrpc", .str "2.0"), ("id", .num 42), ("result", .num 7)] ∧
    jIndex (send_response (.num 42) (.num 7)) "id" = .num 42 ∧
    jIndex (send_response (.num 42) (.num 7)) "result" = .num 7 ∧
    decodeRequest (send_response (.num 42) (.num 7)) = .error "missing field method" :=
  ⟨rfl, rfl, rfl, rfl⟩

/-- C2 counterexample: decoding the encoded success response with the
program's message decoder does not succeed. -/
theorem response_roundtrip_fails :
    decodeRequest (send_response (.num 42) (.num 7)) = .error "missing field method" ∧
    (∀ r, decodeRequest (send_response (.num 42) (.num 7)) ≠ .ok r) :=
  ⟨rfl, fun _ h => Except.noConfusion h⟩

/-- C3: a decoded request carrying an `id` whose method is one of the six
registered methods is answered by exactly one success response addressed
to that `id`, followed by exactly one "Processed {method}" log
notification, with no error response and no process exit. -/
theorem registered_request_emits_response (r : JsonRpcRequest) (idv : Json)
    (hid : r.id = some idv)
    (hm : r.method ∈ ["add", "multiply", "fibonacci", "is_prime", "sum_array", "echo"]) :
    ∃ result, handle_request r =
      ([send_response idv result,
        send_notification "log" (.obj [("message", .str ("Processed " ++ r.method))])],
       none) := by
  obtain ⟨res, hres⟩ : ∃ res, handleMethod r.method r.params = some res := by
    simp only [List.mem_cons, List.not_mem_nil, or_false] at hm
    rcases hm with h | h | h | h | h | h <;> rw [h]
    · exact ⟨_, rfl⟩
    · exact ⟨_, rfl⟩
    · exact ⟨_, rfl⟩
    · exact ⟨_, rfl⟩
    · rcases ha : asArray (jIndex r.params "numbers") with _ | l <;>
        simp [handleMethod, ha]
    · exact ⟨_, rfl⟩
  exact ⟨res, by simp [handle_request, hid, hres]⟩

/-- C3 witness: an `add` request with id 1 and params a=2, b=3. -/
theorem registered_request_emits_response_witness :
    (JsonRpcRequest.mk "2.0" (some (.num 1)) "add"
        (.obj [("a", .num 2), ("b", .num 3)])).id = some (.num 1) ∧
    "add" ∈ ["add", "multiply", "fibonacci", "is_prime", "sum_array", "echo"] ∧
    ∃ result,
      handle_request
          (JsonRpcRequest.mk "2.0" (some (.num 1)) "add"
            (.obj [("a", .num 2), ("b", .num 3)])) =
        ([send_response (.num 1) result,
          send_notification "log" (.obj [("message", .str ("Processed " ++ "add"))])],
         none) :=
  ⟨rfl, by simp,
   registered_request_emits_response
     (JsonRpcRequest.mk "2.0" (some (.num 1)) "add" (.obj [("a", .num 2), ("b", .num 3)]))
     (.num 1) rfl (by simp)⟩

/-- C4: a decoded request carrying an `id` whose method is not registered
is answered by exactly one error response with code -32601 and message
"Method not found: {method}" addressed to that `id`; no success response
and no "Processed" notification is emitted and the process does not exit. -/
theorem unknown_method_emits_error (r : JsonRpcRequest) (idv : Json)
    (hid : r.id = some idv)
    (hm : r.method ∉ ["add", "multiply", "fibonacci", "is_prime", "sum_array", "echo"]) :
    handle_request r =
      ([send_error idv (-32601) ("Method not found: " ++ r.method)], none) := by
  simp only [List.mem_cons, List.not_mem_nil, or_false, not_or] at hm
  obtain ⟨h1, h2, h3, h4, h5, h6⟩ := hm
  have hnone : handleMethod r.method r.params = none := by
    unfold handleMethod
    split <;> simp_all
  simp [handle_request, hid, hnone]

/-- C4 witness: a request with id 9 and unregistered method "frobnicate". -/
theorem unknown_method_emits_error_witness :
    (JsonRpcRequest.mk "2.0" (some (.num 9)) "frobnicate" .null).id = some (.num 9) ∧
    "frobnicate" ∉ ["add", "multiply", "fibonacci", "is_prime", "sum_array", "echo"] ∧
    handle_request (JsonRpcRequest.mk "2.0" (some (.num 9)) "frobnicate" .null) =
      ([send_error (.num 9) (-32601) ("Method not found: " ++ "frobnicate")], none) :=
  ⟨rfl, by simp,
   unknown_method_emits_error
     (JsonRpcRequest.mk "2.0" (some (.num 9)) "frobnicate" .null) (.num 9) rfl (by simp)⟩

/-- C10: a `shutdown` message carrying an `id` is handled as an ordinary
request with an unknown method: the process does not exit, and exactly one
error response with code -32601 and message "Method not found: shutdown"
addressed to that `id` is emitted. -/
theorem shutdown_with_id_is_not_found (r : JsonRpcRequest) (idv : Json)
    (hid : r.id = some idv) (hm : r.method = "shutdown") :
    handle_request r =
      ([send_error idv (-32601) "Method not found: shutdown"], none) := by
  have hnone : handleMethod "shutdown" r.params = none := rfl
  simp [handle_request, hid, hnone, hm]

/-- C10 witness: a shutdown request with id 5. -/
theorem shutdown_with_id_is_not_found_witness :
    (JsonRpcRequest.mk "2.0" (some (.num 5)) "shutdown" .null).id = some (.num 5) ∧
    (JsonRpcRequest.mk "2.0" (some (.num 5)) "shutdown" .null).method = "shutdown" ∧
    handle_request (JsonRpcRequest.mk "2.0" (some (.num 5)) "shutdown" .null) =
      ([send_error (.num 5) (-32601) "Method not found: shutdown"], none) :=
  ⟨rfl, rfl,
   shutdown_with_id_is_not_found
     (JsonRpcRequest.mk "2.0" (some (.num 5)) "shutdown" .null) (.num 5) rfl rfl⟩

/-- C9: an inbound message whose `id` field is JSON `null` decodes to a
request with no id, i.e. a notification: handling it emits only
notifications (no success and no error response), and an unrecognized
(non-shutdown) method yields exactly the "Unknown notification: {method}"
log line with no process exit. -/
theorem null_id_treated_as_notification (kvs : List (String × Json)) (r : JsonRpcRequest)
    (hdec : decodeRequest (.obj kvs) = .ok r)
    (hnull : getField kvs "id" = .ok (some .null)) :
    r.id = none ∧
    (∀ m ∈ (handle_request r).1, ∃ mth p, m = send_notification mth p) ∧
    (r.method ≠ "shutdown" →
      handle_request r =
        ([send_notification "log"
            (.obj [("message", .str ("Unknown notification: " ++ r.method))])], none)) := by
  obtain ⟨ver, mname, iv, pv, -, -, hi, -, rfl⟩ := (decodeRequest_ok_iff kvs r).1 hdec
  rw [hnull] at hi
  injection hi with hi
  subst hi
  refine ⟨rfl, ?_, ?_⟩
  · intro m hm
    by_cases hs : mname = "shutdown" <;>
      simp [handle_request, classifyId, hs] at hm <;>
      exact ⟨_, _, hm⟩
  · intro hs
    simp [handle_request, classifyId, hs]

/-- C9 witness: a message with a JSON-null id and method "ping". -/
theorem null_id_treated_as_notification_witness :
    (∃ r, decodeRequest
        (.obj [("jsonrpc", Json.str "2.0"), ("id", Json.null), ("method", Json.str "ping")]) =
        .ok r) ∧
    getField [("jsonrpc", Json.str "2.0"), ("id", Json.null), ("method", Json.str "ping")] "id" =
      .ok (some .null) ∧
    ∃ r, decodeRequest
        (.obj [("jsonrpc", Json.str "2.0"), ("id", Json.null), ("method", Json.str "ping")]) =
        .ok r ∧
      r.id = none ∧
      (r.method ≠ "shutdown" →
        handle_request r =
          ([send_notification "log"
              (.obj [("message", .str ("Unknown notification: " ++ r.method))])], none)) := by
  have h := null_id_treated_as_notification
    [("jsonrpc", Json.str "2.0"), ("id", Json.null), ("method", Json.str "ping")]
    (JsonRpcRequest.mk "2.0" none "ping" Json.null) rfl rfl
  exact ⟨⟨_, rfl⟩, rfl, ⟨_, rfl, h.1, h.2.2⟩⟩

/-- C5: a decoded message with no `id` and method "shutdown" makes the
process emit exactly one "Shutting down..." log notification and exit
with success status (code 0); the remaining input lines are never
processed and nothing further is written. -/
theorem shutdown_notification_exits (j : Json) (r : JsonRpcRequest)
    (rest : List (Except String Json))
    (hdec : decodeRequest j = .ok r)
    (hid : r.id = none) (hm : r.method = "shutdown") :
    processLine (.ok j) =
      ([send_notification "log" (.obj [("message", .str "Shutting down...")])], some 0) ∧
    runLoop (.ok j :: rest) =
      [send_notification "log" (.obj [("message", .str "Shutting down...")])] := by
  have hp : processLine (.ok j) =
      ([send_notification "log" (.obj [("message", .str "Shutting down...")])], some 0) := by
    simp [processLine, hdec, handle_request, hid, hm]
  exact ⟨hp, by simp [runLoop, hp]⟩

/-- C5 witness: the literal line `{"jsonrpc":"2.0","method":"shutdown"}`
followed by another pending line that is never processed. -/
theorem shutdown_notification_exits_witness :
    (∃ r, decodeRequest (.obj [("jsonrpc", Json.str "2.0"), ("method", Json.str "shutdown")]) =
        .ok r ∧ r.id = none ∧ r.method = "shutdown") ∧
    runLoop [.ok (.obj [("jsonrpc", Json.str "2.0"), ("method", Json.str "shutdown")]),
             .ok (.obj [("jsonrpc", Json.str "2.0"), ("id", Json.num 1),
                        ("method", Json.str "echo")])] =
      [send_notification "log" (.obj [("message", .str "Shutting down...")])] :=
  ⟨⟨_, rfl, rfl, rfl⟩,
   (shutdown_notification_exits
      (.obj [("jsonrpc", Json.str "2.0"), ("method", Json.str "shutdown")]) _
      [.ok (.obj [("jsonrpc", Json.str "2.0"), ("id", Json.num 1), ("method", Json.str "echo")])]
      rfl rfl rfl).2⟩

/-- C7 (amended): the sum_array handler returns the 64-bit two's-complement
(wrapping) sum of the elements of `numbers` that are integers in `i64`
range, silently skipping the other elements, and returns 0 when `numbers`
is absent or not an array; in particular `sum_array({numbers:[1,2,"x",3]})`
returns 6 and `sum_array({})` returns 0.  (The unwrapped mathematical sum
is not returned when the `i64` addition overflows: see the
counterexample.) -/
theorem sum_array_spec :
    (∀ params l, asArray (jIndex params "numbers") = some l →
      handleMethod "sum_array" params = some (.num (sum_i64 (l.filterMap asI64)))) ∧
    (∀ params, asArray (jIndex params "numbers") = none →
      handleMethod "sum_array" params = some (.num 0)) ∧
    handleMethod "sum_array" (.obj [("numbers", .arr [.num 1, .num 2, .str "x", .num 3])]) =
      some (.num 6) ∧
    handleMethod "sum_array" (.obj []) = some (.num 0) := by
  refine ⟨?_, ?_, rfl, rfl⟩
  · intro params l ha
    simp [handleMethod, ha]
  · intro params ha
    simp [handleMethod, ha]

/-- C7 witness: the handler applied to `{numbers: [1, 2, "x", 3]}`. -/
theorem sum_array_spec_witness :
    asArray (jIndex (.obj [("numbers", .arr [.num 1, .num 2, .str "x", .num 3])]) "numbers") =
      some [.num 1, .num 2, .str "x", .num 3] ∧
    handleMethod "sum_array" (.obj [("numbers", .arr [.num 1, .num 2, .str "x", .num 3])]) =
      some (.num (sum_i64 ([Json.num 1, .num 2, .str "x", .num 3].filterMap asI64))) :=
  ⟨rfl, sum_array_spec.1 (.obj [("numbers", .arr [.num 1, .num 2, .str "x", .num 3])])
    [.num 1, .num 2, .str "x", .num 3] rfl⟩

/-- C7 counterexample: on `{numbers: [9223372036854775807, 1]}` (both
elements integers) the handler returns the wrapped value -2^63, not the
sum 2^63 of the integer elements, refuting "returns the sum of the
integer elements" as stated. -/
theorem sum_array_overflow_wraps :
    handleMethod "sum_array"
        (.obj [("numbers", .arr [.num 9223372036854775807, .num 1])]) =
      some (.num (-9223372036854775808)) ∧
    (9223372036854775807 : Int) + 1 ≠ -9223372036854775808 :=
  ⟨by rfl, by decide⟩

/-- C8: the fibonacci handler's function satisfies fibonacci(0) = 0,
fibonacci(1) = 1, and fibonacci(n) = fibonacci(n-1) + fibonacci(n-2) for
n ≥ 2, where the addition is over the 64-bit unsigned machine integers
(i.e. taken mod 2^64). -/
theorem fibonacci_recurrence :
    fibonacci 0 = 0 ∧ fibonacci 1 = 1 ∧
    ∀ n : Nat, 2 ≤ n →
      fibonacci n = (fibonacci (n - 1) + fibonacci (n - 2)) % 2 ^ 64 := by
  refine ⟨rfl, rfl, ?_⟩
  intro n hn
  obtain ⟨m, rfl⟩ : ∃ m, n = m + 2 := ⟨n - 2, by omega⟩
  simp [fibonacci]

/-- C8 witness: the recurrence evaluated at n = 10. -/
theorem fibonacci_recurrence_witness :
    2 ≤ 10 ∧ fibonacci 10 = (fibonacci 9 + fibonacci 8) % 2 ^ 64 :=
  ⟨by decide, fibonacci_recurrence.2.2 10 (by decide)⟩

/-- The fuel-based square root agrees with `Nat.sqrt` when given enough fuel. -/
theorem isqrtAux_eq_sqrt : ∀ fuel n, n ≤ fuel → isqrtAux fuel n = Nat.sqrt n := by
  intro fuel
  induction fuel with
  | zero =>
    intro n hn
    obtain rfl : n = 0 := by omega
    rfl
  | succ fuel ih =>
    intro n hn
    by_cases h2 : n < 2
    · rcases (by omega : n = 0 ∨ n = 1) with rfl | rfl <;> simp [isqrtAux]
    · have hrec := ih (n / 4) (by omega)
      simp only [isqrtAux, if_neg h2, hrec]
      set s := Nat.sqrt (n / 4) with hs
      have hs1 : s * s ≤ n / 4 := Nat.sqrt_le (n / 4)
      have hs2 : n / 4 < (s + 1) * (s + 1) := Nat.lt_succ_sqrt (n / 4)
      have h4 : 4 * (n / 4) ≤ n ∧ n < 4 * (n / 4) + 4 := by omega
      have h1 : (2 * s) * (2 * s) ≤ n := by nlinarith [h4.1]
      have h2' : n < (2 * s + 2) * (2 * s + 2) := by nlinarith [h4.2]
      split
      · rename_i hle
        rw [Nat.eq_sqrt]
        exact ⟨hle, by nlinarith⟩
      · rename_i hgt
        push_neg at hgt
        rw [Nat.eq_sqrt]
        exact ⟨h1, by nlinarith⟩

/-- The executable square root is `Nat.sqrt`. -/
theorem isqrt_eq_sqrt (n : Nat) : isqrt n = Nat.sqrt n := isqrtAux_eq_sqrt n n le_rfl

theorem bitlenAux_zero : ∀ fuel, bitlenAux fuel 0 = 0
  | 0 => rfl
  | fuel + 1 => by simp [bitlenAux]

/-- Specification of the fuel-based binary length. -/
theorem bitlenAux_spec : ∀ fuel n, n ≤ fuel → 1 ≤ n →
    1 ≤ bitlenAux fuel n ∧ 2 ^ (bitlenAux fuel n - 1) ≤ n ∧ n < 2 ^ bitlenAux fuel n := by
  intro fuel
  induction fuel with
  | zero => intro n hn h1; omega
  | succ fuel ih =>
    intro n hn h1
    have hne : n ≠ 0 := by omega
    simp only [bitlenAux, if_neg hne]
    by_cases hone : n = 1
    · subst hone
      rw [show (1 : Nat) / 2 = 0 from rfl, bitlenAux_zero]
      norm_num
    · obtain ⟨hb1, hlow, hhigh⟩ := ih (n / 2) (by omega) (by omega)
      obtain ⟨b0, hb⟩ : ∃ b0, bitlenAux fuel (n / 2) = b0 + 1 :=
        ⟨bitlenAux fuel (n / 2) - 1, by omega⟩
      rw [hb] at hlow hhigh ⊢
      have e1 : 2 ^ (b0 + 1) = 2 ^ b0 * 2 := by rw [pow_succ]
      have e2 : 2 ^ (b0 + 2) = 2 ^ (b0 + 1) * 2 := by rw [pow_succ]
      simp only [Nat.add_sub_cancel] at hlow ⊢
      refine ⟨by omega, by omega, by omega⟩

/-- Specification of `bitlen`: `n` has exactly `bitlen n` binary digits. -/
theorem bitlen_spec (n : Nat) (h1 : 1 ≤ n) :
    1 ≤ bitlen n ∧ 2 ^ (bitlen n - 1) ≤ n ∧ n < 2 ^ bitlen n :=
  bitlenAux_spec n n le_rfl h1

/-- `bitlen` is determined by any enclosing binade. -/
theorem bitlen_eq_of (n t : Nat) (h1 : 1 ≤ t) (hlow : 2 ^ (t - 1) ≤ n) (hhigh : n < 2 ^ t) :
    bitlen n = t := by
  have hn1 : 1 ≤ n := le_trans Nat.one_le_two_pow hlow
  obtain ⟨hb1, hl, hh⟩ := bitlen_spec n hn1
  by_contra hne
  rcases Nat.lt_or_ge (bitlen n) t with hlt | hge
  · have : 2 ^ bitlen n ≤ 2 ^ (t - 1) := Nat.pow_le_pow_right (by norm_num) (by omega)
    omega
  · have : 2 ^ t ≤ 2 ^ (bitlen n - 1) := Nat.pow_le_pow_right (by norm_num) (by omega)
    omega

/-- Rounding to the nearest multiple of `g` moves a number by at most `g/2`
and never below `(n/g)·g`. -/
theorem rnd_mult_bounds (g n : Nat) (hg : 1 ≤ g) :
    2 * n ≤ 2 * rnd_mult g n + g ∧ 2 * rnd_mult g n ≤ 2 * n + g ∧
    n / g * g ≤ rnd_mult g n := by
  have hdm : g * (n / g) + n % g = n := Nat.div_add_mod n g
  have hmlt : n % g < g := Nat.mod_lt _ hg
  have hcomm : g * (n / g) = n / g * g := Nat.mul_comm _ _
  rw [hcomm] at hdm
  simp only [rnd_mult]
  have hsucc : (n / g + 1) * g = n / g * g + g := by ring
  split
  · refine ⟨by omega, by omega, le_rfl⟩
  split
  · rw [hsucc]
    refine ⟨by omega, by omega, by omega⟩
  split
  · refine ⟨by omega, by omega, le_rfl⟩
  · rw [hsucc]
    refine ⟨by omega, by omega, by omega⟩

/-- Conversion to binary64 is exact below 2^53. -/
theorem toF64_small (n : Nat) (h : bitlen n ≤ 53) : toF64 n = n := by
  simp [toF64, h]

/-- Conversion to binary64 moves `n` by at most half an ulp and stays in
the binade of `n`. -/
theorem toF64_bounds (n : Nat) (h : 54 ≤ bitlen n) :
    2 * n ≤ 2 * toF64 n + 2 ^ (bitlen n - 53) ∧
    2 * toF64 n ≤ 2 * n + 2 ^ (bitlen n - 53) ∧
    2 ^ (bitlen n - 1) ≤ toF64 n := by
  have hpos : 1 ≤ n := by
    rcases Nat.eq_zero_or_pos n with rfl | h1
    · rw [show bitlen 0 = 0 from rfl] at h; omega
    · exact h1
  obtain ⟨hb1, hlow, hhigh⟩ := bitlen_spec n hpos
  have hns : ¬ bitlen n ≤ 53 := by omega
  have htf : toF64 n = rnd_mult (2 ^ (bitlen n - 53)) n := by
    simp [toF64, hns]
  have hg : 1 ≤ 2 ^ (bitlen n - 53) := Nat.one_le_two_pow
  obtain ⟨hB1, hB2, hB3⟩ := rnd_mult_bounds (2 ^ (bitlen n - 53)) n hg
  rw [htf]
  refine ⟨by omega, by omega, ?_⟩
  have hsplit : 2 ^ (bitlen n - 1) = 2 ^ 52 * 2 ^ (bitlen n - 53) := by
    rw [← pow_add]; congr 1; omega
  have hquot : 2 ^ 52 ≤ n / 2 ^ (bitlen n - 53) := by
    rw [Nat.le_div_iff_mul_le hg]
    calc 2 ^ 52 * 2 ^ (bitlen n - 53) = 2 ^ (bitlen n - 1) := hsplit.symm
      _ ≤ n := hlow
  calc 2 ^ (bitlen n - 1) = 2 ^ 52 * 2 ^ (bitlen n - 53) := hsplit
    _ ≤ n / 2 ^ (bitlen n - 53) * 2 ^ (bitlen n - 53) :=
        Nat.mul_le_mul_right _ hquot
    _ ≤ rnd_mult (2 ^ (bitlen n - 53)) n := hB3

/-- When the binary64 input is at least `k²`, the rounded square root
truncates to at least `k`. -/
theorem f64_sqrt_floor_ge (m k : Nat) (hm : 1 ≤ m) (hkk : k * k ≤ m) :
    k ≤ f64_sqrt_floor m := by
  have hne : m ≠ 0 := by omega
  simp only [f64_sqrt_floor, if_neg hne]
  set E := (bitlen m - 1) / 2 with hE
  set S := 2 ^ (52 - E) with hS
  have hS1 : 1 ≤ S := Nat.one_le_two_pow
  set M := m * S * S with hM
  have hsq : (k * S) * (k * S) ≤ M := by
    calc (k * S) * (k * S) = k * k * S * S := by ring
      _ ≤ m * S * S := Nat.mul_le_mul_right _ (Nat.mul_le_mul_right _ hkk)
  have hkM : k * S ≤ isqrt M := by
    rw [isqrt_eq_sqrt]
    exact Nat.le_sqrt.2 hsq
  have hr : k * S ≤ (if M ≤ isqrt M * isqrt M + isqrt M then isqrt M else isqrt M + 1) := by
    split <;> omega
  exact (Nat.le_div_iff_mul_le hS1).2 hr

/-- The rounded square root never exceeds `√m + 1` after truncation. -/
theorem f64_sqrt_floor_le (m : Nat) : f64_sqrt_floor m ≤ Nat.sqrt m + 1 := by
  rcases Nat.eq_zero_or_pos m with rfl | hm
  · simp [f64_sqrt_floor]
  have hne : m ≠ 0 := by omega
  simp only [f64_sqrt_floor, if_neg hne]
  set E := (bitlen m - 1) / 2 with hE
  set S := 2 ^ (52 - E) with hS
  have hS1 : 1 ≤ S := Nat.one_le_two_pow
  set M := m * S * S with hM
  set kM := isqrt M with hkMdef
  have hkMs : kM = Nat.sqrt M := isqrt_eq_sqrt M
  have hup : M < ((Nat.sqrt m + 1) * S) * ((Nat.sqrt m + 1) * S) := by
    have h1 : m < (Nat.sqrt m + 1) * (Nat.sqrt m + 1) := Nat.lt_succ_sqrt m
    have hSS : 0 < S * S := Nat.mul_pos hS1 hS1
    calc M = m * (S * S) := by rw [hM]; ring
      _ < ((Nat.sqrt m + 1) * (Nat.sqrt m + 1)) * (S * S) := by
          exact Nat.mul_lt_mul_of_lt_of_le h1 le_rfl hSS
      _ = ((Nat.sqrt m + 1) * S) * ((Nat.sqrt m + 1) * S) := by ring
  have hkMlt : kM < (Nat.sqrt m + 1) * S := by
    rw [hkMs]
    exact Nat.sqrt_lt.2 hup
  have hr : (if M ≤ kM * kM + kM then kM else kM + 1) ≤ (Nat.sqrt m + 1) * S := by
    split <;> omega
  calc (if M ≤ kM * kM + kM then kM else kM + 1) / S
      ≤ ((Nat.sqrt m + 1) * S) / S := Nat.div_le_div_right hr
    _ = Nat.sqrt m + 1 := Nat.mul_div_cancel _ hS1

/-- The delicate case of the square-root lower bound: the input `m` sits
just below `k²` because converting `n ≥ k²` to binary64 rounded down.
Even then the rounded square root truncates to at least `k`: the rounding
error is under half an ulp of the original, which scaled into the
significand grid of `√m` is strictly less than the distance from `√m` to
`k`'s predecessor grid point. -/
theorem f64_sqrt_floor_ge_of_near (m k L : Nat)
    (hmk : m < k * k) (hL : bitlen m = L) (h54 : 54 ≤ L) (hL105 : L ≤ 105)
    (hnear : 2 * (k * k) ≤ 2 * m + 2 ^ (L - 53)) :
    k ≤ f64_sqrt_floor m := by
  have hm1 : 1 ≤ m := by
    rcases Nat.eq_zero_or_pos m with rfl | h; · rw [show bitlen 0 = 0 from rfl] at hL; omega
    · exact h
  have hne : m ≠ 0 := by omega
  simp only [f64_sqrt_floor, if_neg hne, hL]
  set E := (L - 1) / 2 with hE
  set S := 2 ^ (52 - E) with hS
  have hS1 : 1 ≤ S := Nat.one_le_two_pow
  set M := m * S * S with hM
  set kM := isqrt M with hkMdef
  have hkMs : kM = Nat.sqrt M := isqrt_eq_sqrt M
  have hllow : 2 ^ (L - 1) ≤ m := by
    have := (bitlen_spec m hm1).2.1
    rw [hL] at this
    exact this
  -- k exceeds 2^E
  have hkE : 2 ^ E + 1 ≤ k := by
    have h2E : 2 ^ E * 2 ^ E ≤ 2 ^ (L - 1) := by
      rw [← pow_add]
      exact Nat.pow_le_pow_right (by norm_num) (by omega)
    by_contra hc
    push_neg at hc
    have : k * k ≤ 2 ^ E * 2 ^ E := Nat.mul_le_mul (by omega) (by omega)
    omega
  -- the scaled ulp is at most 2·2^E
  have hgS : 2 ^ (L - 53) * S ≤ 2 * 2 ^ E := by
    have he : 2 ^ (L - 53) * S = 2 ^ (L - 53 + (52 - E)) := by rw [hS, ← pow_add]
    have hexp : L - 53 + (52 - E) ≤ E + 1 := by omega
    have h2 : 2 ^ (E + 1) = 2 * 2 ^ E := by rw [pow_succ]; ring
    calc 2 ^ (L - 53) * S = 2 ^ (L - 53 + (52 - E)) := he
      _ ≤ 2 ^ (E + 1) := Nat.pow_le_pow_right (by norm_num) hexp
      _ = 2 * 2 ^ E := h2
  by_contra hc
  push_neg at hc
  -- the truncated result below k forces the rounded significand below k·S
  have hrS : (if M ≤ kM * kM + kM then kM else kM + 1) < k * S := by
    have := (Nat.div_lt_iff_lt_mul hS1).1 hc
    exact this
  -- upper bound: M + k·S ≤ (k·S)²
  have hupper : M + k * S ≤ (k * S) * (k * S) := by
    have hsrt1 : kM * kM ≤ M := by rw [hkMs]; exact Nat.sqrt_le M
    have hsrt2 : M < (kM + 1) * (kM + 1) := by rw [hkMs]; exact Nat.lt_succ_sqrt M
    by_cases hbr : M ≤ kM * kM + kM
    · rw [if_pos hbr] at hrS
      have e1 : M ≤ kM * (kM + 1) := by
        calc M ≤ kM * kM + kM := hbr
          _ = kM * (kM + 1) := by ring
      have e2 : kM * (kM + 1) ≤ kM * (k * S) := Nat.mul_le_mul_left kM (by omega)
      have e3 : kM * (k * S) + k * S = (kM + 1) * (k * S) := by ring
      have e4 : (kM + 1) * (k * S) ≤ (k * S) * (k * S) := Nat.mul_le_mul_right _ (by omega)
      omega
    · rw [if_neg hbr] at hrS
      have e1 : M + 1 ≤ (kM + 1) * (kM + 1) := hsrt2
      have e2 : (kM + 1) * (kM + 1) ≤ (kM + 1) * (k * S) := Nat.mul_le_mul_left _ (by omega)
      have e3 : (kM + 1) * (k * S) + k * S = (kM + 2) * (k * S) := by ring
      have e4 : (kM + 2) * (k * S) ≤ (k * S) * (k * S) := Nat.mul_le_mul_right _ (by omega)
      omega
  -- lower bound: 2·(k·S)² + 2·S ≤ 2·M + 2·(k·S)
  have hlower : 2 * ((k * S) * (k * S)) + 2 * S ≤ 2 * M + 2 * (k * S) := by
    have l1 : 2 * (k * k) * (S * S) ≤ (2 * m + 2 ^ (L - 53)) * (S * S) :=
      Nat.mul_le_mul_right _ hnear
    have l2 : (2 * m + 2 ^ (L - 53)) * (S * S) = 2 * M + (2 ^ (L - 53) * S) * S := by
      rw [hM]; ring
    have l3 : (2 ^ (L - 53) * S) * S ≤ (2 * 2 ^ E) * S := Nat.mul_le_mul_right _ hgS
    have l4 : 2 * (k * k) * (S * S) = 2 * ((k * S) * (k * S)) := by ring
    have l5 : (2 * 2 ^ E) * S + 2 * S = 2 * ((2 ^ E + 1) * S) := by ring
    have l6 : (2 ^ E + 1) * S ≤ k * S := Nat.mul_le_mul_right _ hkE
    omega
  omega

/-- The computed `(n as f64).sqrt() as u64` never undershoots the true
floor square root (for inputs in `u64` range). -/
theorem rust_sqrt_ge (n : Nat) (h1 : 1 ≤ n) (h64 : n < 2 ^ 64) :
    Nat.sqrt n ≤ rust_sqrt n := by
  have hkk : Nat.sqrt n * Nat.sqrt n ≤ n := Nat.sqrt_le n
  have hk1 : 1 ≤ Nat.sqrt n := Nat.sqrt_pos.2 h1
  rw [rust_sqrt]
  by_cases hcase : Nat.sqrt n * Nat.sqrt n ≤ toF64 n
  · have hone : 1 * 1 ≤ Nat.sqrt n * Nat.sqrt n := Nat.mul_le_mul hk1 hk1
    exact f64_sqrt_floor_ge (toF64 n) (Nat.sqrt n) (by omega) hcase
  · push_neg at hcase
    have hlt : toF64 n < n := by omega
    have h54 : 54 ≤ bitlen n := by
      by_contra hs
      rw [toF64_small n (by omega)] at hlt
      omega
    have hL64 : bitlen n ≤ 64 := by
      by_contra hgt
      push_neg at hgt
      have hl := (bitlen_spec n h1).2.1
      have : 2 ^ 64 ≤ 2 ^ (bitlen n - 1) := Nat.pow_le_pow_right (by norm_num) (by omega)
      omega
    obtain ⟨hA, hB, hC⟩ := toF64_bounds n h54
    have hhigh : n < 2 ^ bitlen n := (bitlen_spec n h1).2.2
    have hbl : bitlen (toF64 n) = bitlen n :=
      bitlen_eq_of _ _ (by omega) hC (by omega)
    exact f64_sqrt_floor_ge_of_near (toF64 n) (Nat.sqrt n) (bitlen n) hcase hbl h54
      (by omega) (by omega)

/-- The computed square root stays far below `n` itself. -/
theorem rust_sqrt_lt (n : Nat) (h3 : 3 ≤ n) : rust_sqrt n < n := by
  have hb := f64_sqrt_floor_le (toF64 n)
  rw [rust_sqrt]
  by_cases hsmall : bitlen n ≤ 53
  · rw [toF64_small n hsmall] at hb ⊢
    have hlt : Nat.sqrt n < n - 1 := by
      rw [Nat.sqrt_lt]
      obtain ⟨p, rfl⟩ : ∃ p, n = p + 3 := ⟨n - 3, by omega⟩
      have : (p + 3 - 1) * (p + 3 - 1) = p * p + 4 * p + 4 := by
        rw [show p + 3 - 1 = p + 2 from rfl]; ring
      omega
    omega
  · push_neg at hsmall
    have h1 : 1 ≤ n := by omega
    obtain ⟨-, hB, -⟩ := toF64_bounds n (by omega)
    have hgn : 2 ^ (bitlen n - 53) ≤ n :=
      le_trans (Nat.pow_le_pow_right (by norm_num) (by omega)) (bitlen_spec n h1).2.1
    have hn8 : 8 ≤ n := by
      have h8 : (8 : Nat) ≤ 2 ^ (bitlen n - 1) := by
        calc (8 : Nat) = 2 ^ 3 := by norm_num
          _ ≤ 2 ^ (bitlen n - 1) := Nat.pow_le_pow_right (by norm_num) (by omega)
      have := (bitlen_spec n h1).2.1
      omega
    have hm2n : toF64 n ≤ 2 * n := by omega
    have hs2n : Nat.sqrt (toF64 n) ≤ Nat.sqrt (2 * n) := Nat.sqrt_le_sqrt hm2n
    have hlt : Nat.sqrt (2 * n) < n - 1 := by
      rw [Nat.sqrt_lt]
      obtain ⟨p, rfl⟩ : ∃ p, n = p + 8 := ⟨n - 8, by omega⟩
      have : (p + 8 - 1) * (p + 8 - 1) = p * p + 14 * p + 49 := by
        rw [show p + 8 - 1 = p + 7 from rfl]; ring
      omega
    omega

/-- Characterization of the trial-division loop: it reports `true` exactly
when no odd `d` with `3 ≤ d ≤ s` divides `n`. -/
theorem noOddDivUpTo_iff (s n : Nat) :
    noOddDivUpTo s n = true ↔ ∀ d, 3 ≤ d → d ≤ s → d % 2 = 1 → ¬ d ∣ n := by
  unfold noOddDivUpTo
  rw [List.all_eq_true]
  constructor
  · intro h d h3 hds hodd hdvd
    have hmem : d ∈ List.range' 3 ((s - 1) / 2) 2 := by
      rw [List.mem_range']
      exact ⟨(d - 3) / 2, by omega, by omega⟩
    have hne := h d hmem
    simp only [bne_iff_ne, ne_eq] at hne
    exact hne (Nat.mod_eq_zero_of_dvd hdvd)
  · intro h i hi
    rw [List.mem_range'] at hi
    obtain ⟨j, hj, rfl⟩ := hi
    simp only [bne_iff_ne, ne_eq]
    intro h0
    exact h (3 + 2 * j) (by omega) (by omega) (by omega) (Nat.dvd_of_mod_eq_zero h0)

/-- Checking odd divisors up to any bound `s` between `√n` and `n` is the
same as checking them up to `√n`: a divisor above `√n` has a cofactor
below `√n`, and for odd `n` that cofactor is again odd and at least 3
(it cannot be 1 because the divisor would then be `n > s`). -/
theorem trial_division_window (n s : Nat) (hodd : n % 2 = 1) (h3 : 3 ≤ n)
    (hls : Nat.sqrt n ≤ s) (hus : s < n) :
    (∀ d, 3 ≤ d → d ≤ s → d % 2 = 1 → ¬ d ∣ n) ↔
    (∀ d, 3 ≤ d → d ≤ Nat.sqrt n → d % 2 = 1 → ¬ d ∣ n) := by
  constructor
  · intro h d h3d hd hodd'
    exact h d h3d (le_trans hd hls) hodd'
  · intro h d h3d hds hoddd hdvd
    by_cases hle : d ≤ Nat.sqrt n
    · exact h d h3d hle hoddd hdvd
    push_neg at hle
    obtain ⟨c, hc⟩ := hdvd
    have hc0 : 0 < c := by
      rcases Nat.eq_zero_or_pos c with rfl | hpos
      · rw [Nat.mul_zero] at hc; omega
      · exact hpos
    have hdd : n < d * d := Nat.sqrt_lt.1 hle
    have hcd : c < d := by
      by_contra hge
      push_neg at hge
      have : d * d ≤ d * c := Nat.mul_le_mul_left d hge
      omega
    have hcsqrt : c ≤ Nat.sqrt n := by
      rw [Nat.le_sqrt]
      calc c * c ≤ c * d := Nat.mul_le_mul_left c (by omega)
        _ = n := by rw [hc]; ring
    have hcodd : c % 2 = 1 := by
      rcases Nat.mod_two_eq_zero_or_one c with h0 | h1
      · obtain ⟨t, rfl⟩ := Nat.dvd_of_mod_eq_zero h0
        have : n = 2 * (d * t) := by rw [hc]; ring
        omega
      · exact h1
    have hc3 : 3 ≤ c := by
      rcases (by omega : c = 1 ∨ 2 ≤ c) with rfl | h2
      · rw [Nat.mul_one] at hc; omega
      · omega
    exact h c hc3 hcsqrt hcodd ⟨d, by rw [hc]; ring⟩

/-- For odd `n ≥ 3`, having no odd divisor in `[3, √n]` is exactly
primality. -/
theorem odd_trial_division_iff_prime (n : Nat) (hodd : n % 2 = 1) (h3 : 3 ≤ n) :
    (∀ d, 3 ≤ d → d ≤ Nat.sqrt n → d % 2 = 1 → ¬ d ∣ n) ↔ Nat.Prime n := by
  constructor
  · intro h
    rw [Nat.prime_def_le_sqrt]
    refine ⟨by omega, ?_⟩
    intro m h2m hms hdvd
    rcases Nat.mod_two_eq_zero_or_one m with he | ho
    · obtain ⟨t, rfl⟩ := Nat.dvd_of_mod_eq_zero he
      obtain ⟨u, hu⟩ := hdvd
      have : n = 2 * (t * u) := by rw [hu]; ring
      omega
    · exact h m (by omega) hms ho hdvd
  · intro hp d h3d hds hodd' hdvd
    rcases (Nat.Prime.eq_one_or_self_of_dvd hp d hdvd) with rfl | rfl
    · omega
    · have : Nat.sqrt d < d := Nat.sqrt_lt_self (by omega)
      omega

/-- C6: for every u64 input n, is_prime returns false when n < 2, true
when n = 2, false for even n > 2, and for odd n > 2 returns true exactly
when no odd divisor d with 3 ≤ d ≤ ⌊√n⌋ divides n — so it agrees with
trial division and hence with mathematical primality.  (The divisor bound
`(n as f64).sqrt() as u64` is modelled exactly as IEEE-754 arithmetic; it
may exceed ⌊√n⌋ but never falls below it, and the excess candidates are
harmless.) -/
theorem is_prime_correct (n : Nat) (h64 : n < 2 ^ 64) :
    (n < 2 → is_prime n = false) ∧
    (n = 2 → is_prime n = true) ∧
    (2 < n → n % 2 = 0 → is_prime n = false) ∧
    (2 < n → n % 2 = 1 →
      (is_prime n = true ↔ ∀ d, 3 ≤ d → d ≤ Nat.sqrt n → d % 2 = 1 → ¬ d ∣ n)) ∧
    (is_prime n = true ↔ Nat.Prime n) := by
  have hmain : 2 < n → n % 2 = 1 →
      (is_prime n = true ↔ ∀ d, 3 ≤ d → d ≤ Nat.sqrt n → d % 2 = 1 → ¬ d ∣ n) := by
    intro h2 hodd
    have hip : is_prime n = noOddDivUpTo (rust_sqrt n) n := by
      simp [is_prime, show ¬ n < 2 by omega, show n ≠ 2 by omega, show ¬ n % 2 = 0 by omega]
    rw [hip, noOddDivUpTo_iff]
    exact trial_division_window n (rust_sqrt n) hodd (by omega)
      (rust_sqrt_ge n (by omega) h64) (rust_sqrt_lt n (by omega))
  refine ⟨?_, ?_, ?_, hmain, ?_⟩
  · intro h
    simp [is_prime, h]
  · intro h
    subst h
    rfl
  · intro h2 he
    simp [is_prime, show ¬ n < 2 by omega, show n ≠ 2 by omega, he]
  · rcases Nat.lt_or_ge n 2 with hlt | hge
    · rw [show is_prime n = false by simp [is_prime, hlt]]
      simp only [Bool.false_eq_true, false_iff]
      intro hp
      have := hp.two_le
      omega
    rcases Nat.eq_or_lt_of_le hge with heq | hgt
    · rw [← heq]
      rw [show is_prime 2 = true from rfl]
      simp [Nat.prime_two]
    rcases Nat.mod_two_eq_zero_or_one n with he | ho
    · rw [show is_prime n = false by
        simp [is_prime, show ¬ n < 2 by omega, show n ≠ 2 by omega, he]]
      simp only [Bool.false_eq_true, false_iff]
      intro hp
      have h2 : 2 ∣ n := Nat.dvd_of_mod_eq_zero he
      rcases (Nat.Prime.eq_one_or_self_of_dvd hp 2 h2) with h | h <;> omega
    · rw [hmain hgt ho, odd_trial_division_iff_prime n ho (by omega)]

/-- C6 witness: the characterization instantiated at n = 97. -/
theorem is_prime_correct_witness :
    (97 : Nat) < 2 ^ 64 ∧
    ((97 < 2 → is_prime 97 = false) ∧
     ((97 : Nat) = 2 → is_prime 97 = true) ∧
     (2 < 97 → 97 % 2 = 0 → is_prime 97 = false) ∧
     (2 < 97 → 97 % 2 = 1 →
       (is_prime 97 = true ↔ ∀ d, 3 ≤ d → d ≤ Nat.sqrt 97 → d % 2 = 1 → ¬ d ∣ 97)) ∧
     (is_prime 97 = true ↔ Nat.Prime 97)) :=
  ⟨by norm_num, is_prime_correct 97 (by norm_num)⟩
